import Mathlib

/-!
Verification development for the Cadence quantizer module
(`backends/cadence/aot/quantizer/quantizer.py`): a shallow embedding of the
graph data model, the per-pattern annotation pass (`CadenceAtenQuantizer.annotate`),
the default configuration, and the default quantizer list, together with
theorems about the spec's claims.
-/

/-- Operator kinds appearing in traced graphs. Node op kinds are opaque handles
in the host framework; an inductive enumeration of the kinds used by the
pattern catalog. -/
inductive OpKind where
  | placeholder
  | linear
  | mm
  | addmm
  | addOp
  | mulOp
  | subOp
  | relu
  | bmm
  | conv1d
  | conv2d
  | layerNorm
  | matmul
deriving DecidableEq, Repr

/-- Observer strategies (`torch.ao.quantization.observer`): histogram-based
(`HistogramObserver.with_args(eps=2**-12)`, eps kept as a numerator/denominator
pair, here 1/4096) or min/max-based (`MinMaxObserver`). -/
inductive Observer where
  | histogram (epsNum epsDen : Nat)
  | minMax
deriving DecidableEq, Repr

/-- Tensor dtypes used by the quantizer's specs. -/
inductive DType where
  | uint8
deriving DecidableEq, Repr

/-- Quantization schemes used by the quantizer's specs. -/
inductive QScheme where
  | perTensorAffine
deriving DecidableEq, Repr

/-- Embedding of `QuantizationSpec` from
`executorch.backends.xnnpack.quantizer.xnnpack_quantizer_utils`: dtype,
representable range, scheme, static/dynamic flag, observer constructor. -/
structure QuantizationSpec where
  dtype : DType
  quant_min : Int
  quant_max : Int
  qscheme : QScheme
  is_dynamic : Bool
  observer_or_fake_quant_ctr : Observer
deriving DecidableEq, Repr

/-- Embedding of `QuantizationAnnotation` (torch.ao): an optional output spec,
a map from input-producing edges (keyed by the producer node id) to optional
input specs, and the `_annotated` flag. The Python dataclass defaults are
`output_qspec=None`, `input_qspec_map={}`, `_annotated=False`. -/
structure QuantAnnot where
  output_qspec : Option QuantizationSpec
  input_qspec_map : List (Nat × Option QuantizationSpec)
  annotated : Bool
deriving DecidableEq, Repr

/-- Python dict assignment `m[k] = v`: replace in place if the key is present,
otherwise append the new binding at the end. -/
def mapInsert (m : List (Nat × Option QuantizationSpec)) (k : Nat)
    (v : Option QuantizationSpec) : List (Nat × Option QuantizationSpec) :=
  if m.any (fun e => e.1 == k) then
    m.map (fun e => if e.1 = k then (k, v) else e)
  else m ++ [(k, v)]

/-- Python dict lookup `m.get(k)`. -/
def mapLookup (m : List (Nat × Option QuantizationSpec)) (k : Nat) :
    Option (Option QuantizationSpec) :=
  (m.find? (fun e => e.1 == k)).map (fun e => e.2)

/-- A graph node (`torch.fx.Node`): an id, an operator kind, the ordered list
of producer arguments (node ids), and the mutable metadata slot holding the
node's quantization-annotation entry (`node.meta["quantization_annotation"]`),
absent when the node is unannotated. -/
structure Node where
  id : Nat
  op : OpKind
  args : List Nat
  meta : Option QuantAnnot
deriving DecidableEq, Repr

/-- A traced graph (`torch.fx.GraphModule`): its nodes in traversal order. -/
structure Graph where
  nodes : List Node
deriving DecidableEq, Repr

/-- Look a node up by id. -/
def getNode (g : Graph) (i : Nat) : Option Node :=
  g.nodes.find? (fun nd => nd.id == i)

/-- Read a node's quantization-annotation metadata entry. -/
def getMeta (g : Graph) (i : Nat) : Option QuantAnnot :=
  (getNode g i).bind (fun nd => nd.meta)

/-- Replace the metadata entry of the node with id `i`, leaving every other
node untouched. -/
def updNode (i : Nat) (a : QuantAnnot) (nd : Node) : Node :=
  if nd.id = i then { nd with meta := some a } else nd

/-- Write a node's quantization-annotation metadata entry
(`node.meta["quantization_annotation"] = a`). -/
def setMeta (g : Graph) (i : Nat) (a : QuantAnnot) : Graph :=
  ⟨g.nodes.map (updNode i a)⟩

/-- The nodes consuming node `n` (the users of `n`): every node having `n`
among its arguments. -/
def consumers (g : Graph) (n : Nat) : List Node :=
  g.nodes.filter (fun m => m.args.contains n)

/-- A fused partition: its member node ids and its designated output node. -/
structure Partition where
  nodes : List Nat
  output : Nat
deriving DecidableEq, Repr

/-- Modelled from the spec: `no_outside_users` from
`executorch.backends.cadence.aot.quantizer.utils` is not under `src/`;
per spec section 4.3 step 1 a partition is rejected when a node strictly
internal to it (not its designated output) has a consumer outside the
partition. -/
def no_outside_users (g : Graph) (p : Partition) : Bool :=
  p.nodes.all (fun n =>
    n == p.output || (consumers g n).all (fun m => p.nodes.contains m.id))

/-- Modelled from the spec: `is_annotated` from
`executorch.backends.cadence.aot.quantizer.utils` is not under `src/`;
it reports whether any of the given nodes already carries a
quantization-annotation metadata entry whose `_annotated` flag is set. -/
def is_annotated (g : Graph) (ns : List Nat) : Bool :=
  ns.any (fun n =>
    match getMeta g n with
    | some a => a.annotated
    | none => false)

/-- An output-anchor entry `(node,)` or `(node, custom_spec)` of
`PartitionAnchors.output`. -/
structure OutAnchor where
  node : Nat
  customSpec : Option QuantizationSpec
deriving DecidableEq, Repr

/-- An input-anchor entry `(node, idx)` or `(node, idx, custom_spec)` of the
`inputs` / `weights` / `biases` buckets of `PartitionAnchors`. -/
structure InAnchor where
  node : Nat
  idx : Nat
  customSpec : Option QuantizationSpec
deriving DecidableEq, Repr

/-- The four anchor buckets a pattern computes for one matched partition. -/
structure PartitionAnchors where
  inputs : List InAnchor
  weights : List InAnchor
  biases : List InAnchor
  output : List OutAnchor
deriving DecidableEq, Repr

/-- The node list `[x[0] for x in anchors.inputs + anchors.weights +
anchors.biases + anchors.output]` passed to `is_annotated`
(quantizer.py lines 97-105). -/
def anchorNodes (a : PartitionAnchors) : List Nat :=
  (a.inputs ++ a.weights ++ a.biases).map (fun x => x.node)
    ++ a.output.map (fun x => x.node)

/-- Pattern identities of the pattern catalog
(`executorch.backends.cadence.aot.quantizer.patterns`). -/
inductive PatternKind where
  | addmm
  | bmm
  | conv1d
  | conv2d
  | layerNorm
  | linear
  | matmul
  | relu0
  | relu1
deriving DecidableEq, Repr

/-- Modelled from the spec: the `QuantizationPattern` interface of
`executorch.backends.cadence.aot.quantizer.patterns` is not under `src/`;
per spec section 4.1 a pattern exposes its identity, its operator-signature
sequence `partition_types()`, and `get_anchors(graph, partition)` returning
the partition's anchors or a null result. -/
structure QuantizationPattern where
  kind : PatternKind
  partition_types : List OpKind
  get_anchors : Graph → Partition → Option PartitionAnchors

/-- Modelled from the spec: the chain matcher of
`find_sequential_partitions_aten` (in `utils`, not under `src/`); per spec
section 4.2, a signature of length 1 matches any node of that kind, and a
longer signature matches producer→consumer chains in which each intermediate
node's only consumer is the next node in the chain. -/
def chainFrom (g : Graph) (nd : Node) : List OpKind → Option (List Nat)
  | [] => none
  | [k] => if nd.op = k then some [nd.id] else none
  | k :: rest =>
    if nd.op = k then
      match consumers g nd.id with
      | [m] => (chainFrom g m rest).map (fun c => nd.id :: c)
      | _ => none
    else none

/-- Modelled from the spec: `find_sequential_partitions_aten` (in `utils`, not
under `src/`); returns, in graph traversal order, one partition per matched
chain, the chain's last node being the partition's designated output. -/
def find_sequential_partitions_aten (g : Graph) (sig : List OpKind) :
    List Partition :=
  g.nodes.filterMap (fun nd =>
    (chainFrom g nd sig).map (fun c => ⟨c, c.getLastD nd.id⟩))

/-- Embedding of `QuantizationConfig` (xnnpack_quantizer_utils): four optional
specs plus the `is_qat` flag (defaulting to false). -/
structure QuantizationConfig where
  input_activation : Option QuantizationSpec
  output_activation : Option QuantizationSpec
  weight : Option QuantizationSpec
  bias : Option QuantizationSpec
  is_qat : Bool
deriving DecidableEq, Repr

/-- Embedding of `OperatorConfig` (xnnpack_quantizer_utils): a config together
with the operator patterns it applies to. -/
structure OperatorConfig where
  config : QuantizationConfig
  operators : List (List OpKind)
deriving DecidableEq, Repr

/-- quantizer.py line 43: the module-level activation spec `act_qspec`. -/
def act_qspec : QuantizationSpec :=
  ⟨DType.uint8, 0, 255, QScheme.perTensorAffine, false, Observer.histogram 1 4096⟩

/-- quantizer.py line 52: the module-level weight spec `wgt_qspec`. -/
def wgt_qspec : QuantizationSpec :=
  ⟨DType.uint8, 0, 255, QScheme.perTensorAffine, false, Observer.minMax⟩

/-- quantizer.py line 61: the module-level bias spec, absent. -/
def bias_qspec : Option QuantizationSpec := none

/-- quantizer.py line 63: `_default_qconfig = QuantizationConfig(act_qspec,
act_qspec, wgt_qspec, None)` (positionally: input activation, output
activation, weight, bias; `is_qat` keeps its false default). -/
def default_qconfig : QuantizationConfig :=
  ⟨some act_qspec, some act_qspec, some wgt_qspec, none, false⟩

/-- Embedding of `CadenceAtenQuantizer.__init__`: a pattern together with a
quantization config. -/
structure CadenceAtenQuantizer where
  pattern : QuantizationPattern
  quantization_config : QuantizationConfig

/-- quantizer.py line 112: the output spec attached to an output anchor is the
anchor's custom spec when present, else the config's output-activation spec. -/
def resolveOutputSpec (cfgOut : Option QuantizationSpec) (oa : OutAnchor) :
    Option QuantizationSpec :=
  match oa.customSpec with
  | some s => some s
  | none => cfgOut

/-- quantizer.py lines 108-114: one iteration of the output-anchor loop; the
node's metadata entry is set to a fresh annotation record with the resolved
output spec, an empty input-spec map, and the annotated flag set. -/
def annotateOutput (cfgOut : Option QuantizationSpec) (g : Graph)
    (oa : OutAnchor) : Graph :=
  setMeta g oa.node ⟨resolveOutputSpec cfgOut oa, [], true⟩

/-- quantizer.py lines 108-114: the loop over `anchors.output`. -/
def annotateOutputs (cfgOut : Option QuantizationSpec) (outs : List OutAnchor)
    (g : Graph) : Graph :=
  outs.foldl (annotateOutput cfgOut) g

/-- quantizer.py line 130: the key of the input-spec-map entry written for an
input anchor is `node.args[idx]`, the producer feeding the anchor node at the
anchor's argument position. -/
def inputKey (g : Graph) (e : InAnchor) : Nat :=
  match getNode g e.node with
  | some nd => nd.args.getD e.idx 0
  | none => 0

/-- quantizer.py lines 123-134: one iteration of `annotate_inputs`; the node's
existing annotation entry is fetched (defaulting to a fresh record with the
annotated flag set), its input-spec map gains a binding from the anchor's
producer edge to the anchor's custom spec when present else the bucket's
config spec, and the entry is stored back. -/
def annotateInput (spec : Option QuantizationSpec) (g : Graph) (e : InAnchor) :
    Graph :=
  let ann := (getMeta g e.node).getD ⟨none, [], true⟩
  let v := match e.customSpec with
    | some c => some c
    | none => spec
  setMeta g e.node
    { ann with input_qspec_map := mapInsert ann.input_qspec_map (inputKey g e) v }

/-- quantizer.py lines 116-134: `annotate_inputs` over one anchor bucket. -/
def annotate_inputs (spec : Option QuantizationSpec) (ins : List InAnchor)
    (g : Graph) : Graph :=
  ins.foldl (annotateInput spec) g

/-- quantizer.py lines 90-139: the body of `annotate`'s loop over one fused
partition: skip when an internal node has outside users, when the pattern
yields no anchors, or when any anchor node is already annotated; otherwise
write the output anchors, then the inputs, weights, and biases buckets. -/
def processPartition (pat : QuantizationPattern) (cfg : QuantizationConfig)
    (g : Graph) (p : Partition) : Graph :=
  if !(no_outside_users g p) then g
  else
    match pat.get_anchors g p with
    | none => g
    | some anchors =>
      if is_annotated g (anchorNodes anchors) then g
      else
        let g1 := annotateOutputs cfg.output_activation anchors.output g
        let g2 := annotate_inputs cfg.input_activation anchors.inputs g1
        let g3 := annotate_inputs cfg.weight anchors.weights g2
        annotate_inputs cfg.bias anchors.biases g3

/-- quantizer.py lines 79-140: `CadenceAtenQuantizer.annotate` — find the
pattern's fused partitions on the incoming graph, then process them in
order. -/
def CadenceAtenQuantizer.annotate (q : CadenceAtenQuantizer) (g : Graph) :
    Graph :=
  (find_sequential_partitions_aten g q.pattern.partition_types).foldl
    (processPartition q.pattern q.quantization_config) g

/-- quantizer.py lines 142-143: `validate` is `pass` — it performs no state
change and raises nothing; embedded as a total function returning `ok`. -/
def CadenceAtenQuantizer.validate (_q : CadenceAtenQuantizer) (_model : Graph) :
    Except String Unit :=
  Except.ok ()

/-- quantizer.py lines 145-147: `get_supported_operators` returns the empty
list. -/
def CadenceAtenQuantizer.get_supported_operators : List OperatorConfig := []

/-- Modelled from the spec: `ComposableQuantizer` (torch.ao, not under `src/`)
per spec section 4.4 runs its ordered list of annotators sequentially against
one graph. -/
def composeAnnotate (qs : List CadenceAtenQuantizer) (g : Graph) : Graph :=
  qs.foldl (fun g q => q.annotate g) g

/-- Modelled from the spec: anchors of a single-operator pattern (patterns
module not under `src/`); per spec sections 4.1 and 8, the matched node is the
output anchor and its arguments at the given positions are the activation,
weight, and bias input anchors. -/
def singleOpAnchors (inIdxs wIdxs bIdxs : List Nat) (_g : Graph)
    (p : Partition) : Option PartitionAnchors :=
  match p.nodes with
  | [i] =>
    some ⟨inIdxs.map (fun k => ⟨i, k, none⟩), wIdxs.map (fun k => ⟨i, k, none⟩),
      bIdxs.map (fun k => ⟨i, k, none⟩), [⟨i, none⟩]⟩
  | _ => none

/-- Modelled from the spec: anchors of the fused-affine pattern (spec section
8 bucket correctness): for a matched `{mm, add}` chain the output anchor is
the add node, the activation-input anchor is mm's first argument, the weight
anchor is mm's second argument, and the bias anchor is add's non-mm operand. -/
def addmmAnchors (g : Graph) (p : Partition) : Option PartitionAnchors :=
  match p.nodes with
  | [mmId, addId] =>
    match getNode g addId with
    | some addNd =>
      let biasIdx := if addNd.args.getD 0 0 = mmId then 1 else 0
      some ⟨[⟨mmId, 0, none⟩], [⟨mmId, 1, none⟩], [⟨addId, biasIdx, none⟩],
        [⟨addId, none⟩]⟩
    | none => none
  | _ => none

/-- Modelled from the spec: the fused-affine (add + matmul) pattern. -/
def AddmmPattern : QuantizationPattern :=
  ⟨PatternKind.addmm, [OpKind.mm, OpKind.addOp], addmmAnchors⟩

/-- Modelled from the spec: the batched matrix multiply pattern. -/
def BmmPattern : QuantizationPattern :=
  ⟨PatternKind.bmm, [OpKind.bmm], singleOpAnchors [0, 1] [] []⟩

/-- Modelled from the spec: the 1-D convolution pattern. -/
def Conv1dPattern : QuantizationPattern :=
  ⟨PatternKind.conv1d, [OpKind.conv1d], singleOpAnchors [0] [1] [2]⟩

/-- Modelled from the spec: the 2-D convolution pattern. -/
def Conv2dPattern : QuantizationPattern :=
  ⟨PatternKind.conv2d, [OpKind.conv2d], singleOpAnchors [0] [1] [2]⟩

/-- Modelled from the spec: the layer normalization pattern; its weight and
bias are kept in float, so only the activation input and the output are
anchored. -/
def LayerNormPattern : QuantizationPattern :=
  ⟨PatternKind.layerNorm, [OpKind.layerNorm], singleOpAnchors [0] [] []⟩

/-- Modelled from the spec: the plain linear transform pattern. -/
def LinearPattern : QuantizationPattern :=
  ⟨PatternKind.linear, [OpKind.linear], singleOpAnchors [0] [1] [2]⟩

/-- Modelled from the spec: the general matrix multiply pattern. -/
def MatmulPattern : QuantizationPattern :=
  ⟨PatternKind.matmul, [OpKind.matmul], singleOpAnchors [0, 1] [] []⟩

/-- Modelled from the spec: the first relu-fusion variant (relu attached
directly to its producer). -/
def ReluPattern0 : QuantizationPattern :=
  ⟨PatternKind.relu0, [OpKind.relu], singleOpAnchors [0] [] []⟩

/-- Modelled from the spec: the second relu-fusion variant; the spec leaves
its disambiguation from the first variant open, so it is modelled with the
same signature under its own identity. -/
def ReluPattern1 : QuantizationPattern :=
  ⟨PatternKind.relu1, [OpKind.relu], singleOpAnchors [0] [] []⟩

/-- quantizer.py lines 150-163: `get_cadence_default_quantizer_list_with_config`
builds the nine per-pattern annotators, in declared order, all sharing the one
given config. -/
def get_cadence_default_quantizer_list_with_config
    (quantization_config : QuantizationConfig) : List CadenceAtenQuantizer :=
  [⟨AddmmPattern, quantization_config⟩,
   ⟨BmmPattern, quantization_config⟩,
   ⟨Conv1dPattern, quantization_config⟩,
   ⟨Conv2dPattern, quantization_config⟩,
   ⟨LayerNormPattern, quantization_config⟩,
   ⟨LinearPattern, quantization_config⟩,
   ⟨MatmulPattern, quantization_config⟩,
   ⟨ReluPattern0, quantization_config⟩,
   ⟨ReluPattern1, quantization_config⟩]

/-- Embedding of `CadenceQuantizer` / `ComposableQuantizer` state: the held
list of quantizers. -/
structure CadenceQuantizer where
  quantizers : List CadenceAtenQuantizer

/-- quantizer.py lines 181-185: `CadenceDefaultQuantizer.__init__` — when the
caller passes no config the module default is used, and the quantizer list is
built from the chosen config. -/
def CadenceDefaultQuantizer (qconfig : Option QuantizationConfig) :
    CadenceQuantizer :=
  ⟨get_cadence_default_quantizer_list_with_config (qconfig.getD default_qconfig)⟩

/-- Wellformedness of the metadata state: every annotation entry present in
the graph has its annotated flag set. Every entry the pass itself writes has
the flag set, so this is an invariant from any unannotated starting graph. -/
def metaWF (g : Graph) : Bool :=
  g.nodes.all (fun nd =>
    match nd.meta with
    | some a => a.annotated
    | none => true)

/-- The structural content of a node: id, operator kind, and argument wiring —
everything except the metadata slot. -/
def nodeShape (nd : Node) : Nat × OpKind × List Nat := (nd.id, nd.op, nd.args)

/-! ## Basic lemmas about node lookup and metadata writes -/

theorem updNode_id (i : Nat) (a : QuantAnnot) (nd : Node) :
    (updNode i a nd).id = nd.id := by
  unfold updNode; split <;> rfl

theorem updNode_args (i : Nat) (a : QuantAnnot) (nd : Node) :
    (updNode i a nd).args = nd.args := by
  unfold updNode; split <;> rfl

theorem nodeShape_updNode (i : Nat) (a : QuantAnnot) (nd : Node) :
    nodeShape (updNode i a nd) = nodeShape nd := by
  unfold updNode nodeShape; split <;> rfl

theorem getNode_setMeta (g : Graph) (i j : Nat) (a : QuantAnnot) :
    getNode (setMeta g i a) j = (getNode g j).map (updNode i a) := by
  show (g.nodes.map (updNode i a)).find? (fun nd => nd.id == j)
      = (g.nodes.find? (fun nd => nd.id == j)).map (updNode i a)
  rw [List.find?_map]
  have hpred : ((fun nd : Node => nd.id == j) ∘ updNode i a)
      = (fun nd : Node => nd.id == j) := by
    funext nd
    simp [Function.comp, updNode_id]
  rw [hpred]

theorem getNode_id {g : Graph} {j : Nat} {nd : Node}
    (h : getNode g j = some nd) : nd.id = j := by
  have := List.find?_some h
  simpa using this

theorem getNode_mem {g : Graph} {j : Nat} {nd : Node}
    (h : getNode g j = some nd) : nd ∈ g.nodes :=
  List.mem_of_find?_eq_some h

theorem getMeta_setMeta_ne (g : Graph) {i j : Nat} (a : QuantAnnot)
    (h : j ≠ i) : getMeta (setMeta g i a) j = getMeta g j := by
  unfold getMeta
  rw [getNode_setMeta]
  cases hg : getNode g j with
  | none => rfl
  | some nd =>
    have hid : nd.id = j := getNode_id hg
    simp only [Option.map_some', Option.some_bind]
    unfold updNode
    rw [if_neg (by rw [hid]; exact h)]

theorem getMeta_setMeta_self (g : Graph) {i : Nat} (a : QuantAnnot)
    (h : (getNode g i).isSome = true) :
    getMeta (setMeta g i a) i = some a := by
  unfold getMeta
  rw [getNode_setMeta]
  cases hg : getNode g i with
  | none => rw [hg] at h; cases h
  | some nd =>
    have hid : nd.id = i := getNode_id hg
    simp only [Option.map_some', Option.some_bind]
    unfold updNode
    rw [if_pos hid]

theorem hasNode_setMeta (g : Graph) (i : Nat) (a : QuantAnnot) (n : Nat) :
    (getNode (setMeta g i a) n).isSome = (getNode g n).isSome := by
  rw [getNode_setMeta]
  cases getNode g n <;> rfl

theorem inputKey_setMeta (g : Graph) (i : Nat) (a : QuantAnnot) (e : InAnchor) :
    inputKey (setMeta g i a) e = inputKey g e := by
  unfold inputKey
  rw [getNode_setMeta]
  cases getNode g e.node with
  | none => rfl
  | some nd => simp [updNode_args]

theorem nodeShape_setMeta (g : Graph) (i : Nat) (a : QuantAnnot) :
    (setMeta g i a).nodes.map nodeShape = g.nodes.map nodeShape := by
  show (g.nodes.map (updNode i a)).map nodeShape = g.nodes.map nodeShape
  rw [List.map_map]
  congr 1
  funext nd
  exact nodeShape_updNode i a nd

/-! ## Lemmas about the input-spec map (Python dict semantics) -/

theorem find?_mapInsert_pos (m : List (Nat × Option QuantizationSpec))
    (k : Nat) (v : Option QuantizationSpec)
    (h : m.any (fun e => e.1 == k) = true) :
    (m.map (fun e => if e.1 = k then (k, v) else e)).find? (fun e => e.1 == k)
      = some (k, v) := by
  induction m with
  | nil => cases h
  | cons e rest ih =>
    by_cases he : e.1 = k
    · simp only [List.map_cons, if_pos he]
      exact List.find?_cons_of_pos _ (by simp)
    · simp only [List.map_cons, if_neg he]
      rw [List.find?_cons_of_neg _ (by simp [he])]
      apply ih
      simp only [List.any_cons] at h
      rcases Bool.or_eq_true_iff.mp h with h1 | h2
      · exact absurd (by simpa using h1) he
      · exact h2

theorem mapLookup_mapInsert_self (m : List (Nat × Option QuantizationSpec))
    (k : Nat) (v : Option QuantizationSpec) :
    mapLookup (mapInsert m k v) k = some v := by
  unfold mapInsert mapLookup
  by_cases h : m.any (fun e => e.1 == k) = true
  · rw [if_pos h, find?_mapInsert_pos m k v h]
    rfl
  · rw [if_neg h, List.find?_append]
    have hnone : m.find? (fun e => e.1 == k) = none := by
      rw [List.find?_eq_none]
      intro x hx hpx
      exact h (List.any_eq_true.mpr ⟨x, hx, hpx⟩)
    rw [hnone]
    simp

theorem find?_mapInsert_ne (m : List (Nat × Option QuantizationSpec))
    (k k' : Nat) (v : Option QuantizationSpec) :
    (m.map (fun e => if e.1 = k then (k, v) else e)).find? (fun e => e.1 == k')
      = ((m.find? (fun e => e.1 == k')).map
          (fun e => if e.1 = k then (k, v) else e)) := by
  rw [List.find?_map]
  have hpred : ((fun e : Nat × Option QuantizationSpec => e.1 == k')
      ∘ (fun e => if e.1 = k then (k, v) else e))
      = (fun e : Nat × Option QuantizationSpec => e.1 == k') := by
    funext e
    by_cases he : e.1 = k
    · simp [Function.comp, if_pos he, he]
    · simp [Function.comp, if_neg he]
  rw [hpred]

theorem mapLookup_mapInsert_ne (m : List (Nat × Option QuantizationSpec))
    {k k' : Nat} (v : Option QuantizationSpec) (h : k' ≠ k) :
    mapLookup (mapInsert m k v) k' = mapLookup m k' := by
  unfold mapInsert mapLookup
  by_cases hany : m.any (fun e => e.1 == k) = true
  · rw [if_pos hany, find?_mapInsert_ne m k k' v]
    cases hf : m.find? (fun e => e.1 == k') with
    | none => rfl
    | some e =>
      have he' : e.1 = k' := by simpa using List.find?_some hf
      simp [he', h]
  · rw [if_neg hany, List.find?_append]
    cases hf : m.find? (fun e => e.1 == k') with
    | none => simp [Ne.symm h]
    | some e => rfl

/-! ## Lemmas about the write phase of the annotation pass -/

theorem annotate_inputs_cons (s : Option QuantizationSpec) (e : InAnchor)
    (rest : List InAnchor) (g : Graph) :
    annotate_inputs s (e :: rest) g = annotate_inputs s rest (annotateInput s g e) := rfl

theorem annotateOutputs_cons (c : Option QuantizationSpec) (o : OutAnchor)
    (rest : List OutAnchor) (g : Graph) :
    annotateOutputs c (o :: rest) g = annotateOutputs c rest (annotateOutput c g o) := rfl

theorem getMeta_annotateInput_ne (s : Option QuantizationSpec) (g : Graph)
    (e : InAnchor) {n : Nat} (h : n ≠ e.node) :
    getMeta (annotateInput s g e) n = getMeta g n :=
  getMeta_setMeta_ne g _ h

theorem getMeta_annotateOutput_ne (c : Option QuantizationSpec) (g : Graph)
    (oa : OutAnchor) {n : Nat} (h : n ≠ oa.node) :
    getMeta (annotateOutput c g oa) n = getMeta g n :=
  getMeta_setMeta_ne g _ h

theorem getMeta_annotate_inputs_notin (s : Option QuantizationSpec)
    (ins : List InAnchor) :
    ∀ (g : Graph) {n : Nat}, (∀ e ∈ ins, n ≠ e.node) →
    getMeta (annotate_inputs s ins g) n = getMeta g n := by
  induction ins with
  | nil => intro g n _; rfl
  | cons e rest ih =>
    intro g n h
    rw [annotate_inputs_cons, ih _ (fun x hx => h x (List.mem_cons_of_mem _ hx)),
      getMeta_annotateInput_ne s g e (h e (List.mem_cons_self _ _))]

theorem getMeta_annotateOutputs_notin (c : Option QuantizationSpec)
    (outs : List OutAnchor) :
    ∀ (g : Graph) {n : Nat}, (∀ oa ∈ outs, n ≠ oa.node) →
    getMeta (annotateOutputs c outs g) n = getMeta g n := by
  induction outs with
  | nil => intro g n _; rfl
  | cons o rest ih =>
    intro g n h
    rw [annotateOutputs_cons, ih _ (fun x hx => h x (List.mem_cons_of_mem _ hx)),
      getMeta_annotateOutput_ne c g o (h o (List.mem_cons_self _ _))]

theorem hasNode_annotateInput (s : Option QuantizationSpec) (g : Graph)
    (e : InAnchor) (n : Nat) :
    (getNode (annotateInput s g e) n).isSome = (getNode g n).isSome :=
  hasNode_setMeta g _ _ n

theorem hasNode_annotateOutput (c : Option QuantizationSpec) (g : Graph)
    (oa : OutAnchor) (n : Nat) :
    (getNode (annotateOutput c g oa) n).isSome = (getNode g n).isSome :=
  hasNode_setMeta g _ _ n

theorem hasNode_annotate_inputs (s : Option QuantizationSpec)
    (ins : List InAnchor) :
    ∀ (g : Graph) (n : Nat),
    (getNode (annotate_inputs s ins g) n).isSome = (getNode g n).isSome := by
  induction ins with
  | nil => intro g n; rfl
  | cons e rest ih =>
    intro g n
    rw [annotate_inputs_cons, ih, hasNode_annotateInput]

theorem hasNode_annotateOutputs (c : Option QuantizationSpec)
    (outs : List OutAnchor) :
    ∀ (g : Graph) (n : Nat),
    (getNode (annotateOutputs c outs g) n).isSome = (getNode g n).isSome := by
  induction outs with
  | nil => intro g n; rfl
  | cons o rest ih =>
    intro g n
    rw [annotateOutputs_cons, ih, hasNode_annotateOutput]

theorem inputKey_annotateInput (s : Option QuantizationSpec) (g : Graph)
    (e' e : InAnchor) :
    inputKey (annotateInput s g e') e = inputKey g e :=
  inputKey_setMeta g _ _ e

theorem inputKey_annotateOutput (c : Option QuantizationSpec) (g : Graph)
    (oa : OutAnchor) (e : InAnchor) :
    inputKey (annotateOutput c g oa) e = inputKey g e :=
  inputKey_setMeta g _ _ e

theorem inputKey_annotate_inputs (s : Option QuantizationSpec)
    (ins : List InAnchor) :
    ∀ (g : Graph) (e : InAnchor),
    inputKey (annotate_inputs s ins g) e = inputKey g e := by
  induction ins with
  | nil => intro g e; rfl
  | cons e' rest ih =>
    intro g e
    rw [annotate_inputs_cons, ih, inputKey_annotateInput]

theorem inputKey_annotateOutputs (c : Option QuantizationSpec)
    (outs : List OutAnchor) :
    ∀ (g : Graph) (e : InAnchor),
    inputKey (annotateOutputs c outs g) e = inputKey g e := by
  induction outs with
  | nil => intro g e; rfl
  | cons o rest ih =>
    intro g e
    rw [annotateOutputs_cons, ih, inputKey_annotateOutput]

theorem getMeta_some_getNode {g : Graph} {n : Nat} {a : QuantAnnot}
    (h : getMeta g n = some a) :
    ∃ nd, getNode g n = some nd ∧ nd.meta = some a := by
  unfold getMeta at h
  cases hg : getNode g n with
  | none => rw [hg] at h; cases h
  | some nd =>
    rw [hg] at h
    exact ⟨nd, rfl, h⟩

theorem annotateInput_self (s : Option QuantizationSpec) (g : Graph)
    (e : InAnchor) (h : (getNode g e.node).isSome = true) :
    getMeta (annotateInput s g e) e.node =
      some { (getMeta g e.node).getD ⟨none, [], true⟩ with
        input_qspec_map :=
          mapInsert ((getMeta g e.node).getD ⟨none, [], true⟩).input_qspec_map
            (inputKey g e)
            (match e.customSpec with
             | some c => some c
             | none => s) } := by
  unfold annotateInput
  exact getMeta_setMeta_self g _ h

theorem annotateInput_preserves_entry (s : Option QuantizationSpec) (g : Graph)
    (e : InAnchor) {n : Nat} {a : QuantAnnot} (h : getMeta g n = some a) :
    ∃ a', getMeta (annotateInput s g e) n = some a' ∧
      a'.output_qspec = a.output_qspec ∧ a'.annotated = a.annotated := by
  by_cases hn : n = e.node
  · subst hn
    obtain ⟨nd, hnd, _⟩ := getMeta_some_getNode h
    refine ⟨_, annotateInput_self s g e (by rw [hnd]; rfl), ?_, ?_⟩ <;>
      rw [h] <;> rfl
  · exact ⟨a, by rw [getMeta_annotateInput_ne s g e hn]; exact h, rfl, rfl⟩

theorem annotate_inputs_preserves_entry (s : Option QuantizationSpec)
    (ins : List InAnchor) :
    ∀ (g : Graph) {n : Nat} {a : QuantAnnot}, getMeta g n = some a →
    ∃ a', getMeta (annotate_inputs s ins g) n = some a' ∧
      a'.output_qspec = a.output_qspec ∧ a'.annotated = a.annotated := by
  induction ins with
  | nil => exact fun g n a h => ⟨_, h, rfl, rfl⟩
  | cons e rest ih =>
    intro g n a h
    obtain ⟨a1, h1, ho1, hf1⟩ := annotateInput_preserves_entry s g e h
    obtain ⟨a2, h2, ho2, hf2⟩ := ih (annotateInput s g e) h1
    exact ⟨a2, by rw [annotate_inputs_cons]; exact h2,
      ho2.trans ho1, hf2.trans hf1⟩

theorem getMeta_annotateOutputs_mem (c : Option QuantizationSpec)
    (outs : List OutAnchor) :
    ∀ (g : Graph), (outs.map (fun oa => oa.node)).Nodup →
    ∀ oa ∈ outs, (getNode g oa.node).isSome = true →
    getMeta (annotateOutputs c outs g) oa.node =
      some ⟨resolveOutputSpec c oa, [], true⟩ := by
  induction outs with
  | nil => intro g _ oa h; cases h
  | cons o rest ih =>
    intro g hnd oa hmem hsome
    rw [List.map_cons] at hnd
    have hnd' := List.nodup_cons.mp hnd
    rw [annotateOutputs_cons]
    rcases List.mem_cons.mp hmem with rfl | hmem'
    · have hnotin : ∀ x ∈ rest, oa.node ≠ x.node := by
        intro x hx heq
        exact hnd'.1 (heq ▸ List.mem_map_of_mem (fun z => z.node) hx)
      rw [getMeta_annotateOutputs_notin c rest _ hnotin]
      unfold annotateOutput
      exact getMeta_setMeta_self g _ hsome
    · exact ih _ hnd'.2 oa hmem'
        (by rw [hasNode_annotateOutput]; exact hsome)

/-! ## The wellformedness invariant -/

theorem metaWF_entry {g : Graph} (h : metaWF g = true) {n : Nat}
    {a : QuantAnnot} (hm : getMeta g n = some a) : a.annotated = true := by
  obtain ⟨nd, hnd, hmeta⟩ := getMeta_some_getNode hm
  have := List.all_eq_true.mp h nd (getNode_mem hnd)
  rw [hmeta] at this
  exact this

theorem is_annotated_of_mem {g : Graph} {L : List Nat} {n : Nat}
    {a : QuantAnnot} (hL : n ∈ L) (hm : getMeta g n = some a)
    (ha : a.annotated = true) : is_annotated g L = true := by
  unfold is_annotated
  refine List.any_eq_true.mpr ⟨n, hL, ?_⟩
  rw [hm]
  exact ha

theorem getMeta_none_of_not_annotated {g : Graph} {L : List Nat}
    (hwf : metaWF g = true) (h : is_annotated g L = false) {n : Nat}
    (hn : n ∈ L) : getMeta g n = none := by
  cases hm : getMeta g n with
  | none => rfl
  | some a =>
    have := is_annotated_of_mem hn hm (metaWF_entry hwf hm)
    rw [h] at this
    cases this

theorem metaWF_setMeta {g : Graph} (h : metaWF g = true) {i : Nat}
    {a : QuantAnnot} (ha : a.annotated = true) :
    metaWF (setMeta g i a) = true := by
  unfold metaWF setMeta
  rw [List.all_map]
  refine List.all_eq_true.mpr ?_
  intro nd hmem
  have hold := List.all_eq_true.mp h nd hmem
  show (match (updNode i a nd).meta with
    | some x => x.annotated
    | none => true) = true
  by_cases hid : nd.id = i
  · unfold updNode
    rw [if_pos hid]
    exact ha
  · unfold updNode
    rw [if_neg hid]
    exact hold

theorem metaWF_annotateOutput {g : Graph} (h : metaWF g = true)
    (c : Option QuantizationSpec) (oa : OutAnchor) :
    metaWF (annotateOutput c g oa) = true :=
  metaWF_setMeta h rfl

theorem metaWF_annotateInput {g : Graph} (h : metaWF g = true)
    (s : Option QuantizationSpec) (e : InAnchor) :
    metaWF (annotateInput s g e) = true := by
  unfold annotateInput
  apply metaWF_setMeta h
  show ((getMeta g e.node).getD ⟨none, [], true⟩).annotated = true
  cases hm : getMeta g e.node with
  | none => rfl
  | some a => exact metaWF_entry h hm

theorem metaWF_annotate_inputs (s : Option QuantizationSpec)
    (ins : List InAnchor) :
    ∀ {g : Graph}, metaWF g = true → metaWF (annotate_inputs s ins g) = true := by
  induction ins with
  | nil => exact fun h => h
  | cons e rest ih =>
    intro g h
    rw [annotate_inputs_cons]
    exact ih (metaWF_annotateInput h s e)

theorem metaWF_annotateOutputs (c : Option QuantizationSpec)
    (outs : List OutAnchor) :
    ∀ {g : Graph}, metaWF g = true → metaWF (annotateOutputs c outs g) = true := by
  induction outs with
  | nil => exact fun h => h
  | cons o rest ih =>
    intro g h
    rw [annotateOutputs_cons]
    exact ih (metaWF_annotateOutput h c o)

/-! ## Case analysis of processPartition -/

theorem processPartition_reject_outside {pat : QuantizationPattern}
    {cfg : QuantizationConfig} {g : Graph} {p : Partition}
    (h : no_outside_users g p = false) :
    processPartition pat cfg g p = g := by
  unfold processPartition
  rw [h]
  rfl

theorem processPartition_reject_no_anchors {pat : QuantizationPattern}
    {cfg : QuantizationConfig} {g : Graph} {p : Partition}
    (h : pat.get_anchors g p = none) :
    processPartition pat cfg g p = g := by
  unfold processPartition
  cases hu : no_outside_users g p
  · rfl
  · rw [h]
    rfl

theorem processPartition_reject_annotated {pat : QuantizationPattern}
    {cfg : QuantizationConfig} {g : Graph} {p : Partition}
    {anchors : PartitionAnchors}
    (h2 : pat.get_anchors g p = some anchors)
    (h3 : is_annotated g (anchorNodes anchors) = true) :
    processPartition pat cfg g p = g := by
  unfold processPartition
  cases hu : no_outside_users g p
  · rfl
  · rw [h2]
    simp only [Bool.not_true, Bool.false_eq_true, if_false, h3, if_true]

theorem processPartition_accepted {pat : QuantizationPattern}
    {cfg : QuantizationConfig} {g : Graph} {p : Partition}
    {anchors : PartitionAnchors}
    (h1 : no_outside_users g p = true)
    (h2 : pat.get_anchors g p = some anchors)
    (h3 : is_annotated g (anchorNodes anchors) = false) :
    processPartition pat cfg g p =
      annotate_inputs cfg.bias anchors.biases
        (annotate_inputs cfg.weight anchors.weights
          (annotate_inputs cfg.input_activation anchors.inputs
            (annotateOutputs cfg.output_activation anchors.output g))) := by
  unfold processPartition
  rw [h1, h2]
  show (if is_annotated g (anchorNodes anchors) = true then g
    else
      let g1 := annotateOutputs cfg.output_activation anchors.output g
      let g2 := annotate_inputs cfg.input_activation anchors.inputs g1
      let g3 := annotate_inputs cfg.weight anchors.weights g2
      annotate_inputs cfg.bias anchors.biases g3) = _
  rw [h3]
  rfl

theorem anchorNodes_mem_inputs {anchors : PartitionAnchors} {e : InAnchor}
    (h : e ∈ anchors.inputs) : e.node ∈ anchorNodes anchors := by
  unfold anchorNodes
  exact List.mem_append_left _
    (List.mem_map_of_mem _ (List.mem_append_left _ (List.mem_append_left _ h)))

theorem anchorNodes_mem_weights {anchors : PartitionAnchors} {e : InAnchor}
    (h : e ∈ anchors.weights) : e.node ∈ anchorNodes anchors := by
  unfold anchorNodes
  exact List.mem_append_left _
    (List.mem_map_of_mem _ (List.mem_append_left _ (List.mem_append_right _ h)))

theorem anchorNodes_mem_biases {anchors : PartitionAnchors} {e : InAnchor}
    (h : e ∈ anchors.biases) : e.node ∈ anchorNodes anchors := by
  unfold anchorNodes
  exact List.mem_append_left _
    (List.mem_map_of_mem _ (List.mem_append_right _ h))

theorem anchorNodes_mem_output {anchors : PartitionAnchors} {oa : OutAnchor}
    (h : oa ∈ anchors.output) : oa.node ∈ anchorNodes anchors := by
  unfold anchorNodes
  exact List.mem_append_right _ (List.mem_map_of_mem _ h)

theorem processPartition_preserves_entry {pat : QuantizationPattern}
    {cfg : QuantizationConfig} {g : Graph} {p : Partition} {n : Nat}
    {a : QuantAnnot} (hwf : metaWF g = true) (hm : getMeta g n = some a) :
    getMeta (processPartition pat cfg g p) n = some a := by
  cases h1 : no_outside_users g p with
  | false => rw [processPartition_reject_outside h1]; exact hm
  | true =>
    cases h2 : pat.get_anchors g p with
    | none => rw [processPartition_reject_no_anchors h2]; exact hm
    | some anchors =>
      cases h3 : is_annotated g (anchorNodes anchors) with
      | true => rw [processPartition_reject_annotated h2 h3]; exact hm
      | false =>
        rw [processPartition_accepted h1 h2 h3]
        have hnot : n ∉ anchorNodes anchors := by
          intro hin
          have := is_annotated_of_mem hin hm (metaWF_entry hwf hm)
          rw [h3] at this
          cases this
        rw [getMeta_annotate_inputs_notin _ _ _
              (fun e he heq => hnot (by rw [heq]; exact anchorNodes_mem_biases he)),
            getMeta_annotate_inputs_notin _ _ _
              (fun e he heq => hnot (by rw [heq]; exact anchorNodes_mem_weights he)),
            getMeta_annotate_inputs_notin _ _ _
              (fun e he heq => hnot (by rw [heq]; exact anchorNodes_mem_inputs he)),
            getMeta_annotateOutputs_notin _ _ _
              (fun oa ho heq => hnot (by rw [heq]; exact anchorNodes_mem_output ho))]
        exact hm

theorem metaWF_processPartition {pat : QuantizationPattern}
    {cfg : QuantizationConfig} {g : Graph} {p : Partition}
    (hwf : metaWF g = true) : metaWF (processPartition pat cfg g p) = true := by
  cases h1 : no_outside_users g p with
  | false => rw [processPartition_reject_outside h1]; exact hwf
  | true =>
    cases h2 : pat.get_anchors g p with
    | none => rw [processPartition_reject_no_anchors h2]; exact hwf
    | some anchors =>
      cases h3 : is_annotated g (anchorNodes anchors) with
      | true => rw [processPartition_reject_annotated h2 h3]; exact hwf
      | false =>
        rw [processPartition_accepted h1 h2 h3]
        exact metaWF_annotate_inputs _ _ (metaWF_annotate_inputs _ _
          (metaWF_annotate_inputs _ _ (metaWF_annotateOutputs _ _ hwf)))

theorem foldl_processPartition_preserves {pat : QuantizationPattern}
    {cfg : QuantizationConfig} (ps : List Partition) :
    ∀ {g : Graph} {n : Nat} {a : QuantAnnot}, metaWF g = true →
    getMeta g n = some a →
    metaWF (ps.foldl (processPartition pat cfg) g) = true ∧
    getMeta (ps.foldl (processPartition pat cfg) g) n = some a := by
  induction ps with
  | nil => exact fun hwf hm => ⟨hwf, hm⟩
  | cons p rest ih =>
    intro g n a hwf hm
    rw [List.foldl_cons]
    exact ih (metaWF_processPartition hwf) (processPartition_preserves_entry hwf hm)

theorem annotate_preserves_entry (q : CadenceAtenQuantizer) {g : Graph}
    {n : Nat} {a : QuantAnnot} (hwf : metaWF g = true)
    (hm : getMeta g n = some a) :
    metaWF (q.annotate g) = true ∧ getMeta (q.annotate g) n = some a := by
  unfold CadenceAtenQuantizer.annotate
  exact foldl_processPartition_preserves _ hwf hm

theorem metaWF_foldl_processPartition {pat : QuantizationPattern}
    {cfg : QuantizationConfig} (ps : List Partition) :
    ∀ {g : Graph}, metaWF g = true →
    metaWF (ps.foldl (processPartition pat cfg) g) = true := by
  induction ps with
  | nil => exact fun hwf => hwf
  | cons p rest ih =>
    intro g hwf
    rw [List.foldl_cons]
    exact ih (metaWF_processPartition hwf)

theorem metaWF_annotate (q : CadenceAtenQuantizer) {g : Graph}
    (hwf : metaWF g = true) : metaWF (q.annotate g) = true := by
  unfold CadenceAtenQuantizer.annotate
  exact metaWF_foldl_processPartition _ hwf

theorem composeAnnotate_preserves_entry (qs : List CadenceAtenQuantizer) :
    ∀ {g : Graph} {n : Nat} {a : QuantAnnot}, metaWF g = true →
    getMeta g n = some a → getMeta (composeAnnotate qs g) n = some a := by
  induction qs with
  | nil => exact fun _ hm => hm
  | cons q rest ih =>
    intro g n a hwf hm
    show getMeta (composeAnnotate rest (q.annotate g)) n = some a
    obtain ⟨hwf', hm'⟩ := annotate_preserves_entry q hwf hm
    exact ih hwf' hm'

/-! ## Structural (shape) preservation -/

theorem nodeShape_annotateInput (s : Option QuantizationSpec) (g : Graph)
    (e : InAnchor) :
    (annotateInput s g e).nodes.map nodeShape = g.nodes.map nodeShape :=
  nodeShape_setMeta g _ _

theorem nodeShape_annotateOutput (c : Option QuantizationSpec) (g : Graph)
    (oa : OutAnchor) :
    (annotateOutput c g oa).nodes.map nodeShape = g.nodes.map nodeShape :=
  nodeShape_setMeta g _ _

theorem nodeShape_annotate_inputs (s : Option QuantizationSpec)
    (ins : List InAnchor) :
    ∀ (g : Graph),
    (annotate_inputs s ins g).nodes.map nodeShape = g.nodes.map nodeShape := by
  induction ins with
  | nil => intro g; rfl
  | cons e rest ih =>
    intro g
    rw [annotate_inputs_cons, ih, nodeShape_annotateInput]

theorem nodeShape_annotateOutputs (c : Option QuantizationSpec)
    (outs : List OutAnchor) :
    ∀ (g : Graph),
    (annotateOutputs c outs g).nodes.map nodeShape = g.nodes.map nodeShape := by
  induction outs with
  | nil => intro g; rfl
  | cons o rest ih =>
    intro g
    rw [annotateOutputs_cons, ih, nodeShape_annotateOutput]

theorem nodeShape_processPartition (pat : QuantizationPattern)
    (cfg : QuantizationConfig) (g : Graph) (p : Partition) :
    (processPartition pat cfg g p).nodes.map nodeShape = g.nodes.map nodeShape := by
  cases h1 : no_outside_users g p with
  | false => rw [processPartition_reject_outside h1]
  | true =>
    cases h2 : pat.get_anchors g p with
    | none => rw [processPartition_reject_no_anchors h2]
    | some anchors =>
      cases h3 : is_annotated g (anchorNodes anchors) with
      | true => rw [processPartition_reject_annotated h2 h3]
      | false =>
        rw [processPartition_accepted h1 h2 h3, nodeShape_annotate_inputs,
          nodeShape_annotate_inputs, nodeShape_annotate_inputs,
          nodeShape_annotateOutputs]

theorem nodeShape_foldl_processPartition (pat : QuantizationPattern)
    (cfg : QuantizationConfig) (ps : List Partition) :
    ∀ (g : Graph),
    (ps.foldl (processPartition pat cfg) g).nodes.map nodeShape
      = g.nodes.map nodeShape := by
  induction ps with
  | nil => intro g; rfl
  | cons p rest ih =>
    intro g
    rw [List.foldl_cons, ih, nodeShape_processPartition]

/-! ## Bias entries written under an absent config bias spec -/

theorem annotateInput_none_pres {g : Graph} {n k : Nat} {a : QuantAnnot}
    (e : InAnchor) (hc : e.customSpec = none)
    (hm : getMeta g n = some a)
    (hl : mapLookup a.input_qspec_map k = some none) :
    ∃ a', getMeta (annotateInput none g e) n = some a' ∧
      mapLookup a'.input_qspec_map k = some none := by
  by_cases hn : n = e.node
  · subst hn
    obtain ⟨nd, hnd, _⟩ := getMeta_some_getNode hm
    refine ⟨_, annotateInput_self none g e (by rw [hnd]; rfl), ?_⟩
    rw [hm, hc]
    show mapLookup (mapInsert a.input_qspec_map (inputKey g e) none) k = some none
    by_cases hk : k = inputKey g e
    · subst hk
      exact mapLookup_mapInsert_self _ _ _
    · rw [mapLookup_mapInsert_ne _ _ hk]
      exact hl
  · exact ⟨a, by rw [getMeta_annotateInput_ne none g e hn]; exact hm, hl⟩

theorem annotateInput_none_write (g : Graph) (e : InAnchor)
    (hc : e.customSpec = none) (hex : (getNode g e.node).isSome = true) :
    ∃ a, getMeta (annotateInput none g e) e.node = some a ∧
      mapLookup a.input_qspec_map (inputKey g e) = some none := by
  refine ⟨_, annotateInput_self none g e hex, ?_⟩
  rw [hc]
  exact mapLookup_mapInsert_self _ _ _

theorem annotate_inputs_none_pres (entries : List InAnchor) :
    ∀ {g : Graph} {n k : Nat} {a : QuantAnnot},
    (∀ x ∈ entries, x.customSpec = none) →
    getMeta g n = some a → mapLookup a.input_qspec_map k = some none →
    ∃ a', getMeta (annotate_inputs none entries g) n = some a' ∧
      mapLookup a'.input_qspec_map k = some none := by
  induction entries with
  | nil => exact fun _ hm hl => ⟨_, hm, hl⟩
  | cons e rest ih =>
    intro g n k a hc hm hl
    obtain ⟨a1, h1, hl1⟩ :=
      annotateInput_none_pres e (hc e (List.mem_cons_self _ _)) hm hl
    rw [annotate_inputs_cons]
    exact ih (fun x hx => hc x (List.mem_cons_of_mem _ hx)) h1 hl1

theorem annotate_inputs_bias_none (entries : List InAnchor) :
    ∀ {g : Graph} {e : InAnchor}, e ∈ entries →
    (∀ x ∈ entries, x.customSpec = none) →
    (getNode g e.node).isSome = true →
    ∃ a, getMeta (annotate_inputs none entries g) e.node = some a ∧
      mapLookup a.input_qspec_map (inputKey g e) = some none := by
  induction entries with
  | nil => intro g e h; cases h
  | cons e0 rest ih =>
    intro g e hmem hc hex
    rw [annotate_inputs_cons]
    rcases List.mem_cons.mp hmem with rfl | hmem'
    · obtain ⟨a0, h0, hl0⟩ :=
        annotateInput_none_write g e (hc e (List.mem_cons_self _ _)) hex
      obtain ⟨a1, h1, hl1⟩ := annotate_inputs_none_pres rest
        (fun x hx => hc x (List.mem_cons_of_mem _ hx)) h0 hl0
      exact ⟨a1, h1, hl1⟩
    · have hex' : (getNode (annotateInput none g e0) e.node).isSome = true := by
        rw [hasNode_annotateInput]
        exact hex
      obtain ⟨a1, h1, hl1⟩ :=
        ih hmem' (fun x hx => hc x (List.mem_cons_of_mem _ hx)) hex'
      rw [inputKey_annotateInput] at hl1
      exact ⟨a1, h1, hl1⟩

/-! ## Concrete instances used by claims and witnesses -/

/-- A small traced graph: three placeholders feeding one linear node. -/
def g7 : Graph :=
  ⟨[⟨0, OpKind.placeholder, [], none⟩, ⟨1, OpKind.placeholder, [], none⟩,
    ⟨2, OpKind.placeholder, [], none⟩, ⟨3, OpKind.linear, [0, 1, 2], none⟩]⟩

/-- The linear-pattern annotator under the default config. -/
def qLin : CadenceAtenQuantizer := ⟨LinearPattern, default_qconfig⟩

/-- The annotation entry the pass produces on the linear node of `g7`. -/
def linAnnot : QuantAnnot :=
  ⟨some act_qspec, [(0, some act_qspec), (1, some wgt_qspec), (2, none)], true⟩

/-- The singleton partition holding the linear node of `g7`. -/
def p3 : Partition := ⟨[3], 3⟩

/-- The anchors the linear pattern computes for `p3`. -/
def linAnchors : PartitionAnchors :=
  ⟨[⟨3, 0, none⟩], [⟨3, 1, none⟩], [⟨3, 2, none⟩], [⟨3, none⟩]⟩

/-- The graph `g7` extended with an unrelated node that already carries an
annotation entry. -/
def g1w : Graph :=
  ⟨[⟨0, OpKind.placeholder, [], none⟩, ⟨1, OpKind.placeholder, [], none⟩,
    ⟨2, OpKind.placeholder, [], none⟩, ⟨3, OpKind.linear, [0, 1, 2], none⟩,
    ⟨4, OpKind.placeholder, [], some ⟨none, [], true⟩⟩]⟩

/-- The graph `g7` with its linear node already annotated. -/
def g2w : Graph :=
  ⟨[⟨0, OpKind.placeholder, [], none⟩, ⟨1, OpKind.placeholder, [], none⟩,
    ⟨2, OpKind.placeholder, [], none⟩,
    ⟨3, OpKind.linear, [0, 1, 2], some linAnnot⟩]⟩

/-- A graph in which the mul node (id 1) feeds both the add node (id 2) and
an outside sub node (id 3). -/
def gc3 : Graph :=
  ⟨[⟨0, OpKind.placeholder, [], none⟩, ⟨1, OpKind.mulOp, [0], none⟩,
    ⟨2, OpKind.addOp, [1], none⟩, ⟨3, OpKind.subOp, [1], none⟩]⟩

/-- The would-be fused partition `{mul, add}` of `gc3`, whose internal mul
node has the outside consumer sub. -/
def pc3 : Partition := ⟨[1, 2], 2⟩

/-! ## The claims -/

/-- C1: during an accepted partition's spec-assignment, a node that already
holds a quantization-annotation metadata entry when a new anchor spec is
attached keeps its previously recorded contents: entries present before the
partition is processed are preserved verbatim, and the output spec written to
an output anchor survives the subsequent input-bucket merges — no entry is
replaced wholesale by a fresh one that discards prior contents. -/
theorem claim_C1 (pat : QuantizationPattern) (cfg : QuantizationConfig)
    (g : Graph) (p : Partition) (anchors : PartitionAnchors)
    (hwf : metaWF g = true)
    (h1 : no_outside_users g p = true)
    (h2 : pat.get_anchors g p = some anchors)
    (h3 : is_annotated g (anchorNodes anchors) = false)
    (hdup : (anchors.output.map (fun oa => oa.node)).Nodup)
    (hex : ∀ oa ∈ anchors.output, (getNode g oa.node).isSome = true) :
    (∀ n a, getMeta g n = some a →
      getMeta (processPartition pat cfg g p) n = some a) ∧
    (∀ oa ∈ anchors.output, ∃ a,
      getMeta (processPartition pat cfg g p) oa.node = some a ∧
      a.output_qspec = resolveOutputSpec cfg.output_activation oa ∧
      a.annotated = true) := by
  constructor
  · intro n a hm
    exact processPartition_preserves_entry hwf hm
  · intro oa hoa
    rw [processPartition_accepted h1 h2 h3]
    have hout : getMeta (annotateOutputs cfg.output_activation anchors.output g)
        oa.node = some ⟨resolveOutputSpec cfg.output_activation oa, [], true⟩ :=
      getMeta_annotateOutputs_mem _ _ g hdup oa hoa (hex oa hoa)
    obtain ⟨a1, ha1, ho1, hf1⟩ := annotate_inputs_preserves_entry _ _ _ hout
    obtain ⟨a2, ha2, ho2, hf2⟩ := annotate_inputs_preserves_entry _ _ _ ha1
    obtain ⟨a3, ha3, ho3, hf3⟩ := annotate_inputs_preserves_entry _ _ _ ha2
    exact ⟨a3, ha3, by rw [ho3, ho2, ho1], by rw [hf3, hf2, hf1]⟩

theorem claim_C1_witness :
    metaWF g1w = true ∧
    no_outside_users g1w p3 = true ∧
    LinearPattern.get_anchors g1w p3 = some linAnchors ∧
    is_annotated g1w (anchorNodes linAnchors) = false ∧
    (linAnchors.output.map (fun oa => oa.node)).Nodup ∧
    (∀ oa ∈ linAnchors.output, (getNode g1w oa.node).isSome = true) ∧
    ((∀ n a, getMeta g1w n = some a →
        getMeta (processPartition LinearPattern default_qconfig g1w p3) n
          = some a) ∧
      (∀ oa ∈ linAnchors.output, ∃ a,
        getMeta (processPartition LinearPattern default_qconfig g1w p3) oa.node
          = some a ∧
        a.output_qspec = resolveOutputSpec default_qconfig.output_activation oa ∧
        a.annotated = true)) :=
  ⟨by decide, by decide, by decide, by decide, by decide, by decide,
    claim_C1 LinearPattern default_qconfig g1w p3 linAnchors (by decide)
      (by decide) (by decide) (by decide) (by decide) (by decide)⟩

/-- C2: a partition one of whose anchor nodes (inputs, weights, biases or
output bucket) already carries an annotation is rejected whole — no anchor
receives a new spec — and consequently an annotation entry present on any node
survives the full aggregate pass unchanged (first-match-wins). -/
theorem claim_C2 (pat : QuantizationPattern) (cfg : QuantizationConfig)
    (g : Graph) (p : Partition) (anchors : PartitionAnchors)
    (n : Nat) (a : QuantAnnot) (qs : List CadenceAtenQuantizer)
    (h2 : pat.get_anchors g p = some anchors)
    (h3 : is_annotated g (anchorNodes anchors) = true) :
    processPartition pat cfg g p = g ∧
    (metaWF g = true → getMeta g n = some a →
      getMeta (composeAnnotate qs g) n = some a) :=
  ⟨processPartition_reject_annotated h2 h3,
   fun hwf hm => composeAnnotate_preserves_entry qs hwf hm⟩

theorem claim_C2_witness :
    LinearPattern.get_anchors g2w p3 = some linAnchors ∧
    is_annotated g2w (anchorNodes linAnchors) = true ∧
    metaWF g2w = true ∧
    getMeta g2w 3 = some linAnnot ∧
    processPartition LinearPattern default_qconfig g2w p3 = g2w ∧
    getMeta (composeAnnotate
      (get_cadence_default_quantizer_list_with_config default_qconfig) g2w) 3
      = some linAnnot := by
  have h := claim_C2 LinearPattern default_qconfig g2w p3 linAnchors 3 linAnnot
    (get_cadence_default_quantizer_list_with_config default_qconfig)
    (by decide) (by decide)
  exact ⟨by decide, by decide, by decide, by decide, h.1,
    h.2 (by decide) (by decide)⟩

/-- C3: a partition in which a node strictly internal to it (not its
designated output) has a consumer outside the partition is skipped before any
write: the pass returns the graph unchanged, so every node's metadata entry is
exactly what it was before — the partition's nodes receive no annotation from
this pattern, and no error is raised. -/
theorem claim_C3 (pat : QuantizationPattern) (cfg : QuantizationConfig)
    (g : Graph) (p : Partition) (n0 : Nat) (m : Node)
    (hn : n0 ∈ p.nodes) (hno : n0 ≠ p.output)
    (hm : m ∈ g.nodes) (harg : n0 ∈ m.args) (hout : m.id ∉ p.nodes) :
    processPartition pat cfg g p = g ∧
    ∀ k, getMeta (processPartition pat cfg g p) k = getMeta g k := by
  have hfalse : no_outside_users g p = false := by
    rw [Bool.eq_false_iff]
    intro htrue
    have hall := List.all_eq_true.mp htrue n0 hn
    rcases Bool.or_eq_true_iff.mp hall with h1 | h2
    · exact hno (by simpa using h1)
    · have hmemc : m ∈ consumers g n0 :=
        List.mem_filter.mpr ⟨hm, List.elem_iff.mpr harg⟩
      have := List.all_eq_true.mp h2 m hmemc
      exact hout (List.elem_iff.mp this)
  refine ⟨processPartition_reject_outside hfalse, fun k => ?_⟩
  rw [processPartition_reject_outside hfalse]

theorem claim_C3_witness :
    (1 : Nat) ∈ pc3.nodes ∧ (1 : Nat) ≠ pc3.output ∧
    (⟨3, OpKind.subOp, [1], none⟩ : Node) ∈ gc3.nodes ∧
    (1 : Nat) ∈ (⟨3, OpKind.subOp, [1], none⟩ : Node).args ∧
    (⟨3, OpKind.subOp, [1], none⟩ : Node).id ∉ pc3.nodes ∧
    (processPartition AddmmPattern default_qconfig gc3 pc3 = gc3 ∧
      ∀ k, getMeta (processPartition AddmmPattern default_qconfig gc3 pc3) k
        = getMeta gc3 k) :=
  ⟨by decide, by decide, by decide, by decide, by decide,
    claim_C3 AddmmPattern default_qconfig gc3 pc3 1 ⟨3, OpKind.subOp, [1], none⟩
      (by decide) (by decide) (by decide) (by decide) (by decide)⟩

/-- C4: the aggregate annotation pass is a deterministic pure function of the
graph and the supplied annotator list — on equal (structurally identical)
graphs it produces equal graphs and identical annotation metadata at every
node. -/
theorem claim_C4 (qs : List CadenceAtenQuantizer) (g1 g2 : Graph)
    (h : g1 = g2) :
    composeAnnotate qs g1 = composeAnnotate qs g2 ∧
    ∀ n, getMeta (composeAnnotate qs g1) n = getMeta (composeAnnotate qs g2) n := by
  subst h
  exact ⟨rfl, fun n => rfl⟩

theorem claim_C4_witness :
    g7 = g7 ∧
    (composeAnnotate [qLin] g7 = composeAnnotate [qLin] g7 ∧
      ∀ n, getMeta (composeAnnotate [qLin] g7) n
        = getMeta (composeAnnotate [qLin] g7) n) :=
  ⟨rfl, claim_C4 [qLin] g7 g7 rfl⟩

/-- C5: the default configuration's activation spec uses the histogram
observer with an 8-bit unsigned [0, 255] static per-tensor-affine range and
serves as both the input- and output-activation spec; the weight spec uses the
min/max observer with the same range; the bias spec is absent; the default
config is what the top-level quantizer constructor uses when the caller passes
no config, and a caller-supplied config fully replaces it. -/
theorem claim_C5 :
    act_qspec.observer_or_fake_quant_ctr = Observer.histogram 1 4096 ∧
    act_qspec.dtype = DType.uint8 ∧
    act_qspec.quant_min = 0 ∧
    act_qspec.quant_max = 255 ∧
    act_qspec.qscheme = QScheme.perTensorAffine ∧
    act_qspec.is_dynamic = false ∧
    wgt_qspec.observer_or_fake_quant_ctr = Observer.minMax ∧
    wgt_qspec.dtype = DType.uint8 ∧
    wgt_qspec.quant_min = 0 ∧
    wgt_qspec.quant_max = 255 ∧
    wgt_qspec.qscheme = QScheme.perTensorAffine ∧
    wgt_qspec.is_dynamic = false ∧
    bias_qspec = none ∧
    default_qconfig.input_activation = some act_qspec ∧
    default_qconfig.output_activation = some act_qspec ∧
    default_qconfig.weight = some wgt_qspec ∧
    default_qconfig.bias = none ∧
    CadenceDefaultQuantizer none
      = ⟨get_cadence_default_quantizer_list_with_config default_qconfig⟩ ∧
    ∀ c, CadenceDefaultQuantizer (some c)
      = ⟨get_cadence_default_quantizer_list_with_config c⟩ :=
  ⟨rfl, rfl, rfl, rfl, rfl, rfl, rfl, rfl, rfl, rfl, rfl, rfl, rfl, rfl, rfl,
   rfl, rfl, rfl, fun _ => rfl⟩

/-- C6: the annotation pass only writes per-node annotation metadata: the
returned graph has exactly the same nodes — same ids, operator kinds, and
argument wiring, in the same order — and the same node count as the input
graph. -/
theorem claim_C6 (q : CadenceAtenQuantizer) (g : Graph) :
    (q.annotate g).nodes.map nodeShape = g.nodes.map nodeShape ∧
    (q.annotate g).nodes.length = g.nodes.length := by
  have h : (q.annotate g).nodes.map nodeShape = g.nodes.map nodeShape := by
    unfold CadenceAtenQuantizer.annotate
    exact nodeShape_foldl_processPartition _ _ _ g
  refine ⟨h, ?_⟩
  have hlen := congrArg List.length h
  simpa using hlen

/-- C7: on the concrete graph `g7` the linear annotator produces, on the one
linear node, a single merged annotation entry that simultaneously carries an
output spec (the node is the partition's output anchor) and three
input-spec-map entries (the node is also the partition's input, weight, and
bias anchor). -/
theorem claim_C7 :
    getMeta (qLin.annotate g7) 3 = some linAnnot ∧
    linAnnot.output_qspec = some act_qspec ∧
    mapLookup linAnnot.input_qspec_map 0 = some (some act_qspec) ∧
    mapLookup linAnnot.input_qspec_map 1 = some (some wgt_qspec) ∧
    linAnnot.input_qspec_map.length = 3 := by
  refine ⟨?_, rfl, rfl, rfl, rfl⟩
  rfl

/-- C8: the quantizer's validation hook is a no-op for every model — it
returns successfully with no state change and raises nothing — and the static
operator-support declaration is the empty list. -/
theorem claim_C8 :
    (∀ (q : CadenceAtenQuantizer) (m : Graph),
      CadenceAtenQuantizer.validate q m = Except.ok ()) ∧
    CadenceAtenQuantizer.get_supported_operators = ([] : List OperatorConfig) :=
  ⟨fun _ _ => rfl, rfl⟩

/-- C9: the default quantizer list consists of exactly nine per-pattern
annotators, in the fixed declared order Addmm, Bmm, Conv1d, Conv2d, LayerNorm,
Linear, Matmul, ReluPattern0, ReluPattern1, all sharing the one supplied
config; the declared order fixes the implicit first-match-wins priority. -/
theorem claim_C9 (c : QuantizationConfig) :
    ((get_cadence_default_quantizer_list_with_config c).map
      (fun q => q.pattern.kind) =
      [PatternKind.addmm, PatternKind.bmm, PatternKind.conv1d,
       PatternKind.conv2d, PatternKind.layerNorm, PatternKind.linear,
       PatternKind.matmul, PatternKind.relu0, PatternKind.relu1]) ∧
    (get_cadence_default_quantizer_list_with_config c).length = 9 ∧
    ∀ q ∈ get_cadence_default_quantizer_list_with_config c,
      q.quantization_config = c := by
  refine ⟨rfl, rfl, ?_⟩
  intro q hq
  simp only [get_cadence_default_quantizer_list_with_config, List.mem_cons,
    List.not_mem_nil, or_false] at hq
  rcases hq with rfl | rfl | rfl | rfl | rfl | rfl | rfl | rfl | rfl <;> rfl

theorem claim_C9_witness :
    ((get_cadence_default_quantizer_list_with_config default_qconfig).map
      (fun q => q.pattern.kind) =
      [PatternKind.addmm, PatternKind.bmm, PatternKind.conv1d,
       PatternKind.conv2d, PatternKind.layerNorm, PatternKind.linear,
       PatternKind.matmul, PatternKind.relu0, PatternKind.relu1]) ∧
    (get_cadence_default_quantizer_list_with_config default_qconfig).length = 9 ∧
    ∀ q ∈ get_cadence_default_quantizer_list_with_config default_qconfig,
      q.quantization_config = default_qconfig :=
  claim_C9 default_qconfig

/-- C10: when the config's bias spec is absent, a custom-spec-free bias anchor
of an accepted partition still receives an explicit entry in its node's
input-spec map — the entry is present and maps the bias edge to `none`, rather
than the edge being absent from the map. -/
theorem claim_C10 (pat : QuantizationPattern) (cfg : QuantizationConfig)
    (g : Graph) (p : Partition) (anchors : PartitionAnchors) (e : InAnchor)
    (hbias : cfg.bias = none)
    (h1 : no_outside_users g p = true)
    (h2 : pat.get_anchors g p = some anchors)
    (h3 : is_annotated g (anchorNodes anchors) = false)
    (he : e ∈ anchors.biases)
    (hcust : ∀ x ∈ anchors.biases, x.customSpec = none)
    (hex : (getNode g e.node).isSome = true) :
    ∃ a, getMeta (processPartition pat cfg g p) e.node = some a ∧
      mapLookup a.input_qspec_map (inputKey g e) = some none := by
  have hex3 : (getNode (annotate_inputs cfg.weight anchors.weights
      (annotate_inputs cfg.input_activation anchors.inputs
        (annotateOutputs cfg.output_activation anchors.output g)))
        e.node).isSome = true := by
    rw [hasNode_annotate_inputs, hasNode_annotate_inputs, hasNode_annotateOutputs]
    exact hex
  obtain ⟨a, ha, hl⟩ := annotate_inputs_bias_none anchors.biases he hcust hex3
  rw [inputKey_annotate_inputs, inputKey_annotate_inputs,
    inputKey_annotateOutputs] at hl
  rw [processPartition_accepted h1 h2 h3, hbias]
  exact ⟨a, ha, hl⟩

theorem claim_C10_witness :
    default_qconfig.bias = none ∧
    no_outside_users g7 p3 = true ∧
    LinearPattern.get_anchors g7 p3 = some linAnchors ∧
    is_annotated g7 (anchorNodes linAnchors) = false ∧
    (⟨3, 2, none⟩ : InAnchor) ∈ linAnchors.biases ∧
    (∀ x ∈ linAnchors.biases, x.customSpec = none) ∧
    (getNode g7 (3 : Nat)).isSome = true ∧
    ∃ a, getMeta (processPartition LinearPattern default_qconfig g7 p3) 3
        = some a ∧
      mapLookup a.input_qspec_map (inputKey g7 ⟨3, 2, none⟩) = some none :=
  ⟨by decide, by decide, by decide, by decide, by decide, by decide, by decide,
    claim_C10 LinearPattern default_qconfig g7 p3 linAnchors ⟨3, 2, none⟩
      (by decide) (by decide) (by decide) (by decide) (by decide) (by decide)
      (by decide)⟩
